import Mathlib

/-!
Verification development for the LZF module registry and execution engine
(`main.py`).  The Python core is shallowly embedded: dictionaries become
association lists over `String`, the two metadata regexes become explicit
character-list scanners with the exact leftmost / maximal-munch semantics of
the patterns, dynamic module loading becomes a lookup into a modelled
filesystem whose files carry both their readable text and the result of
executing them, and every command returns the new framework state together
with the lines it prints.
-/

namespace LZF

/-- Constant `METADATA_READ_LINES` from main.py line 15. -/
def METADATA_READ_LINES : Nat := 120

/-- The single-quote character (escaped to keep scanners happy). -/
def squote : Char := Char.ofNat 39

/-- The double-quote character. -/
def dquote : Char := Char.ofNat 34

/-- The opening-brace character of the `OPTIONS = ...` pattern. -/
def lbrace : Char := Char.ofNat 123

/-- The closing-brace character of the `OPTIONS = ...` pattern. -/
def rbrace : Char := Char.ofNat 125

/-- The quote class of the regexes in `_read_meta`. -/
def isQuote (c : Char) : Bool := c == squote || c == dquote

/-- Python regex whitespace class over the characters the source can meet. -/
def pySpace (c : Char) : Bool :=
  c == ' ' || c == Char.ofNat 9 || c == Char.ofNat 10 || c == Char.ofNat 13 ||
    c == Char.ofNat 11 || c == Char.ofNat 12

/-- The `[A-Za-z0-9_]` class of the option-name regex. -/
def pyIdentChar (c : Char) : Bool := c.isAlpha || c.isDigit || c == '_'

/-- Complement of the closing brace, the `[^}]` class. -/
def notRBrace (c : Char) : Bool := !(c == rbrace)

/-- Complement of the quote class, the `[^'"]` class. -/
def notQuote (c : Char) : Bool := !(isQuote c)

/-! ### Python dictionaries as association lists -/

/-- Dictionary lookup (`d[k]` / `d.get(k)`). -/
def dget {α : Type} : List (String × α) → String → Option α
  | [], _ => none
  | (k', v) :: rest, k => if k' = k then some v else dget rest k

/-- Dictionary assignment `d[k] = v`: replace in place, else append. -/
def dset {α : Type} : List (String × α) → String → α → List (String × α)
  | [], k, v => [(k, v)]
  | (k', v') :: rest, k, v =>
    if k' = k then (k, v) :: rest else (k', v') :: dset rest k v

/-- The key list of a dictionary, in insertion order. -/
def dkeys {α : Type} (d : List (String × α)) : List String := d.map Prod.fst

/-! ### Python substring test (`needle in hay`) -/

/-- Test `startsList n h`: whether `h` begins with `n`. -/
def startsList : List Char → List Char → Bool
  | [], _ => true
  | _ :: _, [] => false
  | a :: as, b :: bs => a == b && startsList as bs

/-- Test `hasSub n h`: whether `n` occurs as a contiguous run inside `h`. -/
def hasSub : List Char → List Char → Bool
  | n, [] => startsList n []
  | n, c :: rest => startsList n (c :: rest) || hasSub n rest

/-- Python `s.startswith(pre)` over the character lists. -/
def strStartsWith (s pre : String) : Bool := startsList pre.data s.data

/-- Python `s.lower()` over the character lists. -/
def strToLower (s : String) : String := String.mk (s.data.map Char.toLower)

/-! ### The two regexes of `_read_meta`

`re.search` tries every start position from the left; at a given start both
patterns are deterministic because every starred class excludes the
character that must follow it (maximal munch never backtracks usefully).
-/

/-- Generic `re.search` driver: try the matcher at each start position. -/
def searchFrom {α : Type} (f : List Char → Option α) : List Char → Option α
  | [] => f []
  | c :: rest =>
    match f (c :: rest) with
    | some a => some a
    | none => searchFrom f rest

/-- One anchored attempt of `['\"]description['\"]\s*:\s*['\"]([^'\"]+)['\"]`. -/
def matchDescAt (l : List Char) : Option String :=
  match l with
  | [] => none
  | q :: r =>
    if isQuote q then
      if r.take 11 = "description".data then
        match r.drop 11 with
        | [] => none
        | q2 :: r2 =>
          if isQuote q2 then
            match r2.dropWhile pySpace with
            | [] => none
            | d :: r4 =>
              if d = ':' then
                match r4.dropWhile pySpace with
                | [] => none
                | q3 :: r6 =>
                  if isQuote q3 then
                    match r6.takeWhile notQuote with
                    | [] => none
                    | v0 :: vs =>
                      match r6.dropWhile notQuote with
                      | [] => none
                      | _ :: _ => some (String.mk (v0 :: vs))
                  else none
              else none
          else none
      else none
    else none

/-- One anchored attempt of `OPTIONS\s*=\s*{([^}]*)}` (DOTALL changes nothing:
the pattern has no dot).  Returns the captured single-level body. -/
def matchOptionsAt (l : List Char) : Option (List Char) :=
  if l.take 7 = "OPTIONS".data then
    match (l.drop 7).dropWhile pySpace with
    | [] => none
    | e :: r2 =>
      if e = '=' then
        match r2.dropWhile pySpace with
        | [] => none
        | b :: r4 =>
          if b = lbrace then
            match r4.dropWhile notRBrace with
            | [] => none
            | _ :: _ => some (r4.takeWhile notRBrace)
          else none
      else none
  else none

/-- Search `re.search` of the description pattern over the truncated text. -/
def descSearch (text : List Char) : Option String := searchFrom matchDescAt text

/-- Search `re.search` of the OPTIONS pattern over the truncated text. -/
def optionsSearch (text : List Char) : Option (List Char) := searchFrom matchOptionsAt text

/-- One anchored attempt of `['\"]([A-Za-z0-9_]+)['\"]\s*:` inside the OPTIONS
body; on success returns the captured name and the rest after the match. -/
def nameMatchAt : List Char → Option (String × List Char)
  | [] => none
  | c :: rest =>
    if isQuote c then
      match rest.dropWhile pyIdentChar with
      | [] => none
      | q :: r3 =>
        if isQuote q then
          match rest.takeWhile pyIdentChar with
          | [] => none
          | n0 :: ns =>
            match r3.dropWhile pySpace with
            | [] => none
            | d :: r5 => if d = ':' then some (String.mk (n0 :: ns), r5) else none
        else none
    else none

/-- Fuel-indexed worker for the findall scan; the fuel only bounds the
recursion depth and is irrelevant once it covers the input length. -/
def findNamesAux : Nat → List Char → List String
  | 0, _ => []
  | fuel + 1, l =>
    match nameMatchAt l with
    | some (nm, r) => nm :: findNamesAux fuel r
    | none =>
      match l with
      | [] => []
      | _ :: rest => findNamesAux fuel rest

/-- Scan `re.findall` of the option-name pattern: left to right, emit each
match and continue after it, else slide one character. -/
def findNames (l : List Char) : List String := findNamesAux l.length l

/-! ### Module metadata and `_read_meta` -/

/-- The record `{"description": ..., "options": [...]}` built by `_read_meta`. -/
structure ModMeta where
  description : String
  options : List String
deriving DecidableEq, Repr

/-- Extraction `_read_meta` (main.py lines 144-153): truncate to 120 lines,
run both searches; any read failure yields the untouched initial record. -/
def read_meta : Except Unit (List String) → ModMeta
  | .error _ => { description := "", options := [] }
  | .ok lines =>
    let text := (String.join (lines.take METADATA_READ_LINES)).data
    { description := (descSearch text).getD ""
      options :=
        match optionsSearch text with
        | some body => findNames body
        | none => [] }

/-! ### Modules, instances, framework state -/

/-- One entry of a module's `OPTIONS` dict: `required` / optional `default`
(absent key modelled as `none`) / `description`. -/
structure OptMeta where
  required : Bool
  default : Option String
  description : String
deriving DecidableEq, Repr

/-- A module object produced by executing a module file: its `OPTIONS`
attribute (absent ⇒ `none`) and its `run` entry point, which may raise. -/
structure PyModule where
  OPTIONS? : Option (List (String × OptMeta))
  run : List (String × String) → List (String × String) → Except Unit Unit

/-- A discovered module file: its path relative to its root, the result of
reading its text lines, and the result of executing it as code. -/
structure FileEnt where
  rel : String
  read : Except Unit (List String)
  exec : Except Unit PyModule

/-- The Python-level exceptions the commands catch. -/
inductive PyErr
  | keyError (msg : String)
  | attributeError (msg : String)
  | execError
deriving DecidableEq, Repr

/-- Rendering of a caught exception in a printed line. -/
def errText : PyErr → String
  | .keyError k => k
  | .attributeError a => a
  | .execError => "exec failed"

/-- State `ModuleInstance` (main.py lines 102-112). -/
structure ModuleInstance where
  name : String
  module : PyModule
  options : List (String × String)

/-- Method `set_option`: reject names outside the schema, else store. -/
def ModuleInstance.setOption (inst : ModuleInstance) (key value : String) :
    Except PyErr ModuleInstance :=
  match inst.module.OPTIONS? with
  | none => .error (.attributeError "OPTIONS")
  | some schema =>
    if (dget schema key).isSome then
      .ok { inst with options := dset inst.options key value }
    else .error (.keyError ("Unknown option " ++ key))

/-- One displayed row of `get_options`. -/
structure OptView where
  value : Option String
  required : Bool
  default : Option String
  description : String
deriving DecidableEq, Repr

/-- Method `get_options`: schema order, override else default. -/
def ModuleInstance.getOptions (inst : ModuleInstance) :
    Except PyErr (List (String × OptView)) :=
  match inst.module.OPTIONS? with
  | none => .error (.attributeError "OPTIONS")
  | some schema =>
    .ok (schema.map (fun p =>
      (p.1,
        { value := (dget inst.options p.1).orElse (fun _ => p.2.default)
          required := p.2.required
          default := p.2.default
          description := p.2.description })))

/-- Method `run`: hand the module its session and the raw store. -/
def ModuleInstance.run (inst : ModuleInstance) (session : List (String × String)) :
    Except Unit Unit :=
  inst.module.run session inst.options

/-- Query `search_modules` (main.py lines 116-121): case-insensitive
substring match of the keyword against each key and description. -/
def search_modules (metadata : List (String × ModMeta)) (keyword : String) :
    List (String × String) :=
  let kw := strToLower keyword
  (metadata.filter (fun p =>
      hasSub kw.data (strToLower p.1).data ||
        hasSub kw.data (strToLower p.2.description).data)).map
    (fun p => (p.1, p.2.description))

/-- Engine `LazyFramework` state: two registry maps, the optional current
session, and the long-lived session context. -/
structure LazyFramework where
  modules : List (String × FileEnt)
  metadata : List (String × ModMeta)
  loaded_module : Option ModuleInstance
  session : List (String × String)

/-- One body iteration of `scan_modules`: register location and metadata
under the namespaced key. -/
def scan_step (pfx : String) (st : List (String × FileEnt) × List (String × ModMeta))
    (f : FileEnt) : List (String × FileEnt) × List (String × ModMeta) :=
  (dset st.1 (pfx ++ "/" ++ f.rel) f,
   dset st.2 (pfx ++ "/" ++ f.rel) (read_meta f.read))

/-- Scan `scan_modules` over the two roots, modules first, from cleared maps. -/
def scan_modules (fsm fse : List FileEnt) :
    List (String × FileEnt) × List (String × ModMeta) :=
  fse.foldl (scan_step "examples") (fsm.foldl (scan_step "modules") ([], []))

/-- Constructor of `LazyFramework`: empty session, immediate scan. -/
def LazyFramework.init (fsm fse : List FileEnt) (user : String) : LazyFramework :=
  { modules := (scan_modules fsm fse).1
    metadata := (scan_modules fsm fse).2
    loaded_module := none
    session := [("user", user)] }

/-- Command `cmd_scan`: full replacement of both maps. -/
def LazyFramework.cmd_scan (fw : LazyFramework) (fsm fse : List FileEnt) : LazyFramework :=
  { fw with modules := (scan_modules fsm fse).1, metadata := (scan_modules fsm fse).2 }

/-- The key-resolution loop at the top of `cmd_use`: try each namespace
only when the given name carries none. -/
def resolveKey (fw : LazyFramework) (key : String) : String :=
  if strStartsWith key "modules/" || strStartsWith key "examples/" then key
  else if (dget fw.modules ("modules/" ++ key)).isSome then "modules/" ++ key
  else if (dget fw.modules ("examples/" ++ key)).isSome then "examples/" ++ key
  else key

/-- Loader `import_module`: registry lookup (KeyError) then execution. -/
def import_module (fw : LazyFramework) (key : String) : Except PyErr PyModule :=
  match dget fw.modules key with
  | none => .error (.keyError key)
  | some f =>
    match f.exec with
    | .error _ => .error .execError
    | .ok m => .ok m

/-- The default-materialisation step of `cmd_use`:
`if "default" in meta: inst.options[k] = meta["default"]`. -/
def defStep (acc : List (String × String)) (p : String × OptMeta) :
    List (String × String) :=
  match p.2.default with
  | some d => dset acc p.1 d
  | none => acc

/-- The option store of a fresh instance right after `cmd_use`. -/
def mkDefaults (schema : List (String × OptMeta)) : List (String × String) :=
  schema.foldl defStep []

/-- Command `cmd_use` (main.py lines 203-219): resolve, import, materialise
defaults, install the instance; any exception prints a load error and
leaves the state untouched. -/
def LazyFramework.cmd_use (fw : LazyFramework) (args : List String) :
    LazyFramework × List String :=
  match args with
  | [] => (fw, ["Usage: use <module>"])
  | a :: _ =>
    let key := resolveKey fw a
    match import_module fw key with
    | .error e => (fw, ["Load error: " ++ errText e])
    | .ok mod =>
      match mod.OPTIONS? with
      | none => (fw, ["Load error: " ++ errText (.attributeError "OPTIONS")])
      | some schema =>
        let inst : ModuleInstance :=
          { name := key, module := mod, options := mkDefaults schema }
        ({ fw with loaded_module := some inst }, ["Loaded module " ++ key])

/-- Command `cmd_set`: joined value tokens, exceptions printed, state kept. -/
def LazyFramework.cmd_set (fw : LazyFramework) (args : List String) :
    LazyFramework × List String :=
  match fw.loaded_module with
  | none => (fw, ["No module loaded."])
  | some inst =>
    match args with
    | [] => (fw, ["Usage: set <option> <value>"])
    | [_] => (fw, ["Usage: set <option> <value>"])
    | opt :: rest =>
      let val := String.intercalate " " rest
      match inst.setOption opt val with
      | .ok inst2 => ({ fw with loaded_module := some inst2 }, [opt ++ " => " ++ val])
      | .error e => (fw, [errText e])

/-- Command `cmd_run`: run the instance, render failures, never unload. -/
def LazyFramework.cmd_run (fw : LazyFramework) : LazyFramework × List String :=
  match fw.loaded_module with
  | none => (fw, ["No module loaded."])
  | some inst =>
    match inst.run fw.session with
    | .ok _ => (fw, [])
    | .error _ => (fw, ["Run error"])

/-- Repeated `set` commands on a live instance: failures keep the state. -/
def applySets (inst : ModuleInstance) (sets : List (String × String)) : ModuleInstance :=
  sets.foldl (fun i s =>
    match i.setOption s.1 s.2 with
    | .ok i2 => i2
    | .error _ => i) inst

/-- The override a sequence of sets leaves for one name, else the fallback. -/
def resolveSets (sets : List (String × String)) (k : String) (d : Option String) :
    Option String :=
  sets.foldl (fun acc s => if s.1 = k then some s.2 else acc) d

/-! ### The option-name scan the claim wording describes -/

/-- Strict reading of "quoted identifier immediately followed by a colon":
no whitespace permitted between the closing quote and the colon. -/
def nameMatchStrictAt : List Char → Option (String × List Char)
  | [] => none
  | c :: rest =>
    if isQuote c then
      match rest.dropWhile pyIdentChar with
      | [] => none
      | q :: r3 =>
        if isQuote q then
          match rest.takeWhile pyIdentChar with
          | [] => none
          | n0 :: ns =>
            match r3 with
            | [] => none
            | d :: r5 => if d = ':' then some (String.mk (n0 :: ns), r5) else none
        else none
    else none

/-- Fuel-indexed worker for the strict scan (the fuel covers the length). -/
def specNamesStrictAux : Nat → List Char → List String
  | 0, _ => []
  | fuel + 1, l =>
    match nameMatchStrictAt l with
    | some (nm, r) => nm :: specNamesStrictAux fuel r
    | none =>
      match l with
      | [] => []
      | _ :: rest => specNamesStrictAux fuel rest

/-- The option names the claim's strict wording extracts from a body. -/
def specNamesStrict (l : List Char) : List String := specNamesStrictAux l.length l

/-- One match of the (whitespace-tolerant) name pattern at the head of `l`:
a quote, a nonempty identifier run, a quote, a whitespace run, a colon. -/
def HeadMatch (l : List Char) (nm : List Char) (r : List Char) : Prop :=
  ∃ q q2 ws, isQuote q = true ∧ isQuote q2 = true ∧ nm ≠ [] ∧
    (∀ c ∈ nm, pyIdentChar c = true) ∧ (∀ c ∈ ws, pySpace c = true) ∧
    l = q :: (nm ++ q2 :: (ws ++ ':' :: r))

/-- The scan relation over an OPTIONS body: left to right, emitting each
quoted identifier followed by optional whitespace and a colon, continuing
after the match (no overlap), sliding one character when nothing matches. -/
inductive ScanNames : List Char → List String → Prop
  | nil : ScanNames [] []
  | found {l : List Char} {nm : List Char} {r : List Char} {names : List String} :
      HeadMatch l nm r → ScanNames r names → ScanNames l (String.mk nm :: names)
  | skip {c : Char} {rest : List Char} {names : List String} :
      (∀ nm r, ¬ HeadMatch (c :: rest) nm r) → ScanNames rest names →
      ScanNames (c :: rest) names

/-! ### Concrete fixtures (modelled files, modules and frameworks) -/

/-- The schema of the shipped echo example module. -/
def echoSchema : List (String × OptMeta) :=
  [("MSG", { required := true, default := some "", description := "Message to echo" })]

/-- The executed echo module object. -/
def modEcho : PyModule :=
  { OPTIONS? := some echoSchema, run := fun _ _ => .ok () }

/-- A schema with one option that declares no default. -/
def noDefSchema : List (String × OptMeta) :=
  [("A", { required := true, default := none, description := "mandatory" })]

/-- A module whose only option has no default. -/
def modNoDef : PyModule :=
  { OPTIONS? := some noDefSchema, run := fun _ _ => .ok () }

/-- A module exposing no `OPTIONS` attribute at all. -/
def modPlain : PyModule := { OPTIONS? := none, run := fun _ _ => .ok () }

/-- The echo module on disk. -/
def fileEcho : FileEnt := { rel := "aux/echo.py", read := .ok [], exec := .ok modEcho }

/-- The no-default module on disk. -/
def fileNoDef : FileEnt := { rel := "nodef.py", read := .ok [], exec := .ok modNoDef }

/-- A plain file with neither `OPTIONS` nor a description field. -/
def filePlain : FileEnt := { rel := "plain.py", read := .ok ["x = 1\n"], exec := .ok modPlain }

/-- A file whose read fails. -/
def fileBadRead : FileEnt := { rel := "bad.py", read := .error (), exec := .ok modPlain }

/-- Framework over a single modules root holding the echo module. -/
def fwEcho : LazyFramework := LazyFramework.init [fileEcho] [] "root"

/-- Framework holding the no-default module. -/
def fwNoDef : LazyFramework := LazyFramework.init [fileNoDef] [] "root"

/-- Framework holding the plain module. -/
def fwPlain : LazyFramework := LazyFramework.init [filePlain] [] "root"

/-- The echo framework right after a successful `use`. -/
def fwEchoLoaded : LazyFramework := (fwEcho.cmd_use ["modules/aux/echo.py"]).1

/-- A live echo instance with the default already materialised. -/
def instEcho : ModuleInstance :=
  { name := "modules/aux/echo.py", module := modEcho, options := [("MSG", "")] }

/-- A small metadata registry for search statements. -/
def mdEcho : List (String × ModMeta) :=
  [("modules/aux/echo.py", { description := "Echo string back", options := ["MSG"] }),
   ("examples/recon/sysinfo.py", { description := "Print local system info", options := ["VERBOSE"] })]

/-- The file of the C9 discussion: whitespace between quote and colon. -/
def c9lines : List String := ["OPTIONS = \x7b\"A\" : 1\x7d\n"]

/-- A schema mixing one defaulted and one default-free option. -/
def mixedSchema : List (String × OptMeta) :=
  [("MSG", { required := true, default := some "", description := "Message to echo" }),
   ("A", { required := false, default := none, description := "mandatory" })]

/-- The module carrying `mixedSchema`. -/
def modMixed : PyModule := { OPTIONS? := some mixedSchema, run := fun _ _ => .ok () }

/-- The mixed module on disk. -/
def fileMixed : FileEnt := { rel := "mixed.py", read := .ok [], exec := .ok modMixed }

/-- Framework holding the mixed module. -/
def fwMixed : LazyFramework := LazyFramework.init [fileMixed] [] "root"

/-- The row `get_options` produces for one schema entry over a store. -/
def optView (opts : List (String × String)) (p : String × OptMeta) : String × OptView :=
  (p.1,
    { value := (dget opts p.1).orElse (fun _ => p.2.default)
      required := p.2.required
      default := p.2.default
      description := p.2.description })

/-! ### Lemma development -/

theorem length_dropWhile_le' (p : Char → Bool) (l : List Char) :
    (l.dropWhile p).length ≤ l.length := by
  induction l with
  | nil => simp [List.dropWhile]
  | cons a t ih =>
    rw [List.dropWhile_cons]
    split
    · exact Nat.le_succ_of_le ih
    · exact Nat.le_refl _

theorem nameMatchAt_length : ∀ {l : List Char} {s : String} {r : List Char},
    nameMatchAt l = some (s, r) → r.length < l.length := by
  intro l s r h
  match l with
  | [] => simp [nameMatchAt] at h
  | c :: rest =>
    cases hq : isQuote c
    · simp [nameMatchAt, hq] at h
    · cases hdw : rest.dropWhile pyIdentChar with
      | nil => simp [nameMatchAt, hq, hdw] at h
      | cons q r3 =>
        cases hq2 : isQuote q
        · simp [nameMatchAt, hq, hdw, hq2] at h
        · cases htw : rest.takeWhile pyIdentChar with
          | nil => simp [nameMatchAt, hq, hdw, hq2, htw] at h
          | cons n0 ns =>
            cases hsw : r3.dropWhile pySpace with
            | nil => simp [nameMatchAt, hq, hdw, hq2, htw, hsw] at h
            | cons d r5 =>
              by_cases hd : d = ':'
              · simp [nameMatchAt, hq, hdw, hq2, htw, hsw, hd] at h
                obtain ⟨hs, hr⟩ := h
                cases hr
                have e1 := congrArg List.length hsw
                have e2 := length_dropWhile_le' pySpace r3
                have e3 := congrArg List.length hdw
                have e4 := length_dropWhile_le' pyIdentChar rest
                simp at e1 e3
                simp only [List.length_cons]
                omega
              · simp [nameMatchAt, hq, hdw, hq2, htw, hsw, hd] at h

theorem findNamesAux_fuel : ∀ (f1 : Nat), ∀ (f2 : Nat) (l : List Char),
    l.length ≤ f1 → l.length ≤ f2 → findNamesAux f1 l = findNamesAux f2 l := by
  intro f1
  induction f1 with
  | zero =>
    intro f2 l h1 _
    have : l = [] := List.eq_nil_of_length_eq_zero (Nat.le_zero.mp h1)
    subst this
    cases f2 <;> simp [findNamesAux, nameMatchAt]
  | succ f ih =>
    intro f2 l h1 h2
    cases l with
    | nil => cases f2 <;> simp [findNamesAux, nameMatchAt]
    | cons c rest =>
      cases f2 with
      | zero => simp at h2
      | succ g =>
        simp only [findNamesAux]
        cases hm : nameMatchAt (c :: rest) with
        | some pr =>
          obtain ⟨nm, r⟩ := pr
          have hlt := nameMatchAt_length hm
          simp only [List.length_cons] at h1 h2 hlt
          show nm :: findNamesAux f r = nm :: findNamesAux g r
          rw [ih g r (by omega) (by omega)]
        | none =>
          simp only [List.length_cons] at h1 h2
          show findNamesAux f rest = findNamesAux g rest
          rw [ih g rest (by omega) (by omega)]

theorem findNames_nil : findNames [] = [] := rfl

theorem findNames_eq_some {l : List Char} {nm : String} {r : List Char}
    (h : nameMatchAt l = some (nm, r)) : findNames l = nm :: findNames r := by
  cases l with
  | nil => simp [nameMatchAt] at h
  | cons c rest =>
    have hlt := nameMatchAt_length h
    simp only [List.length_cons] at hlt
    show findNamesAux (rest.length + 1) (c :: rest) = _
    simp only [findNamesAux, h]
    rw [findNamesAux_fuel rest.length r.length r (by omega) (by omega)]
    rfl

theorem findNames_eq_skip {c : Char} {rest : List Char}
    (h : nameMatchAt (c :: rest) = none) : findNames (c :: rest) = findNames rest := by
  show findNamesAux (rest.length + 1) (c :: rest) = _
  simp only [findNamesAux, h]
  rfl
/-! ### Dictionary lemmas -/

theorem dget_dset_self {α : Type} (d : List (String × α)) (k : String) (v : α) :
    dget (dset d k v) k = some v := by
  induction d with
  | nil => simp [dset, dget]
  | cons p rest ih =>
    obtain ⟨k', v'⟩ := p
    by_cases h : k' = k
    · simp [dset, h, dget]
    · simp [dset, h, dget, ih]

theorem dget_dset_ne {α : Type} (d : List (String × α)) (k k' : String) (v : α)
    (h : k' ≠ k) : dget (dset d k v) k' = dget d k' := by
  induction d with
  | nil =>
    simp only [dset, dget]
    rw [if_neg (fun hh => h hh.symm)]
  | cons p rest ih =>
    obtain ⟨k0, v0⟩ := p
    by_cases h0 : k0 = k
    · subst h0
      simp only [dset, if_pos rfl, dget]
      rw [if_neg (fun hh => h hh.symm), if_neg (fun hh => h hh.symm)]
    · simp only [dset, if_neg h0, dget]
      by_cases h1 : k0 = k'
      · simp [h1]
      · simp [h1, ih]

theorem dkeys_dset {α : Type} (d : List (String × α)) (k : String) (v : α) :
    dkeys (dset d k v) =
      if (dget d k).isSome then dkeys d else dkeys d ++ [k] := by
  induction d with
  | nil => simp [dset, dget, dkeys]
  | cons p rest ih =>
    obtain ⟨k0, v0⟩ := p
    by_cases h0 : k0 = k
    · subst h0
      simp [dset, dget, dkeys]
    · simp only [dset, if_neg h0, dget, dkeys, List.map_cons]
      show k0 :: dkeys (dset rest k v) = _
      rw [ih]
      by_cases hs : (dget rest k).isSome
      · simp [hs, dkeys]
      · simp [hs, dkeys]

theorem dmem_iff {α : Type} (d : List (String × α)) (k : String) :
    (dget d k).isSome = true ↔ k ∈ dkeys d := by
  induction d with
  | nil => simp [dget, dkeys]
  | cons p rest ih =>
    obtain ⟨k0, v0⟩ := p
    by_cases h0 : k0 = k
    · subst h0; simp [dget, dkeys]
    · simp [dget, dkeys, h0, ih, Ne.symm h0]

/-! ### Substring characterisation -/

theorem startsList_iff (n : List Char) : ∀ h : List Char,
    (startsList n h = true ↔ ∃ t, h = n ++ t) := by
  induction n with
  | nil => intro h; simp [startsList]
  | cons a as ih =>
    intro h
    cases h with
    | nil => simp [startsList]
    | cons b bs =>
      constructor
      · intro hl
        simp only [startsList, Bool.and_eq_true, beq_iff_eq] at hl
        obtain ⟨hab, hs⟩ := hl
        obtain ⟨t, ht⟩ := (ih bs).mp hs
        exact ⟨t, by rw [← hab, ht]; rfl⟩
      · rintro ⟨t, ht⟩
        rw [List.cons_append] at ht
        injection ht with h1 h2
        simp only [startsList, Bool.and_eq_true, beq_iff_eq]
        exact ⟨h1.symm, (ih bs).mpr ⟨t, h2⟩⟩

theorem hasSub_iff (n : List Char) : ∀ h : List Char,
    (hasSub n h = true ↔ ∃ pre post, h = pre ++ (n ++ post)) := by
  intro h
  induction h with
  | nil =>
    simp only [hasSub, startsList_iff]
    constructor
    · rintro ⟨t, ht⟩; exact ⟨[], t, ht⟩
    · rintro ⟨pre, post, hp⟩
      cases pre with
      | nil => exact ⟨post, hp⟩
      | cons p ps => simp at hp
  | cons c t ih =>
    simp only [hasSub, Bool.or_eq_true, startsList_iff, ih]
    constructor
    · rintro (⟨t2, ht⟩ | ⟨pre, post, hp⟩)
      · exact ⟨[], t2, by simpa using ht⟩
      · exact ⟨c :: pre, post, by simp [hp]⟩
    · rintro ⟨pre, post, hp⟩
      cases pre with
      | nil => exact Or.inl ⟨post, by simpa using hp⟩
      | cons p ps =>
        rw [List.cons_append] at hp
        injection hp with h1 h2
        exact Or.inr ⟨ps, post, h2⟩

theorem hasSub_nil (h : List Char) : hasSub [] h = true :=
  (hasSub_iff [] h).mpr ⟨[], h, rfl⟩

theorem hasSub_self (n : List Char) : hasSub n n = true :=
  (hasSub_iff n n).mpr ⟨[], [], by simp⟩

/-! ### takeWhile / dropWhile helpers -/

theorem takeWhile_split (p : Char → Bool) (a : List Char) (b : Char) (t : List Char)
    (ha : ∀ c ∈ a, p c = true) (hb : p b = false) :
    (a ++ b :: t).takeWhile p = a ∧ (a ++ b :: t).dropWhile p = b :: t := by
  induction a with
  | nil => simp [List.takeWhile_cons, List.dropWhile_cons, hb]
  | cons x xs ih =>
    have hx : p x = true := ha x (by simp)
    have ih2 := ih (fun c hc => ha c (by simp [hc]))
    simp [List.takeWhile_cons, List.dropWhile_cons, hx, ih2.1, ih2.2]

theorem dropWhile_head_false (p : Char → Bool) :
    ∀ {l : List Char} {b : Char} {t : List Char},
    l.dropWhile p = b :: t → p b = false := by
  intro l
  induction l with
  | nil => intro b t h; simp [List.dropWhile] at h
  | cons x xs ih =>
    intro b t h
    rw [List.dropWhile_cons] at h
    split at h
    · exact ih h
    · next hpx =>
      injection h with h1 _
      rw [← h1]
      simpa using hpx

/-! ### The option store right after `cmd_use` -/

theorem foldl_defStep_fresh (schema : List (String × OptMeta)) :
    ∀ (acc : List (String × String)) (k : String),
    k ∉ schema.map Prod.fst →
    dget (schema.foldl defStep acc) k = dget acc k := by
  induction schema with
  | nil => intro acc k _; rfl
  | cons p rest ih =>
    intro acc k h
    simp only [List.map_cons, List.mem_cons] at h
    push_neg at h
    simp only [List.foldl_cons]
    rw [ih _ k h.2]
    cases hd : p.2.default with
    | none => simp [defStep, hd]
    | some d =>
      simp only [defStep, hd]
      exact dget_dset_ne acc p.1 k d h.1

theorem foldl_defStep_mem (schema : List (String × OptMeta)) :
    ∀ (acc : List (String × String)) (p : String × OptMeta),
    (schema.map Prod.fst).Nodup → p ∈ schema →
    dget (schema.foldl defStep acc) p.1 =
      (match p.2.default with
       | some d => some d
       | none => dget acc p.1) := by
  induction schema with
  | nil => intro acc p _ hp; cases hp
  | cons q rest ih =>
    intro acc p hnd hp
    simp only [List.map_cons, List.nodup_cons] at hnd
    simp only [List.foldl_cons]
    rcases List.mem_cons.mp hp with he | hmem
    · subst he
      rw [foldl_defStep_fresh rest _ p.1 hnd.1]
      cases hd : p.2.default with
      | some d => simp [defStep, hd, dget_dset_self]
      | none => simp [defStep, hd]
    · have hpq : p.1 ≠ q.1 := by
        intro he
        exact hnd.1 (he ▸ List.mem_map_of_mem Prod.fst hmem)
      rw [ih _ p hnd.2 hmem]
      cases hd : p.2.default with
      | some d => rfl
      | none =>
        simp only
        cases hq : q.2.default with
        | none => simp [defStep, hq]
        | some dq =>
          simp only [defStep, hq]
          exact dget_dset_ne acc q.1 p.1 dq hpq

theorem mkDefaults_dget (schema : List (String × OptMeta))
    (hnd : (schema.map Prod.fst).Nodup) (p : String × OptMeta) (hp : p ∈ schema) :
    dget (mkDefaults schema) p.1 = p.2.default := by
  unfold mkDefaults
  rw [foldl_defStep_mem schema [] p hnd hp]
  cases hd : p.2.default <;> simp [dget]

/-! ### Scan lemmas -/

theorem foldl_scan_fresh (pfx : String) (files : List FileEnt) :
    ∀ (st : List (String × FileEnt) × List (String × ModMeta)) (k : String),
    k ∉ files.map (fun f => pfx ++ "/" ++ f.rel) →
    dget (files.foldl (scan_step pfx) st).1 k = dget st.1 k ∧
    dget (files.foldl (scan_step pfx) st).2 k = dget st.2 k := by
  induction files with
  | nil => intro st k _; exact ⟨rfl, rfl⟩
  | cons f fs ih =>
    intro st k h
    simp only [List.map_cons, List.mem_cons] at h
    push_neg at h
    simp only [List.foldl_cons]
    obtain ⟨ha, hb⟩ := ih (scan_step pfx st f) k h.2
    rw [ha, hb]
    exact ⟨dget_dset_ne st.1 _ k f h.1,
           dget_dset_ne st.2 _ k (read_meta f.read) h.1⟩

theorem foldl_scan_mem (pfx : String) (files : List FileEnt) :
    ∀ (st : List (String × FileEnt) × List (String × ModMeta)) (f : FileEnt),
    (files.map (fun g => pfx ++ "/" ++ g.rel)).Nodup → f ∈ files →
    dget (files.foldl (scan_step pfx) st).1 (pfx ++ "/" ++ f.rel) = some f ∧
    dget (files.foldl (scan_step pfx) st).2 (pfx ++ "/" ++ f.rel) =
      some (read_meta f.read) := by
  induction files with
  | nil => intro st f _ hf; cases hf
  | cons g fs ih =>
    intro st f hnd hf
    simp only [List.map_cons, List.nodup_cons] at hnd
    simp only [List.foldl_cons]
    rcases List.mem_cons.mp hf with he | hmem
    · subst he
      obtain ⟨ha, hb⟩ := foldl_scan_fresh pfx fs (scan_step pfx st f) _ hnd.1
      rw [ha, hb]
      exact ⟨dget_dset_self st.1 _ f, dget_dset_self st.2 _ (read_meta f.read)⟩
    · exact ih _ f hnd.2 hmem

theorem scan_keys_eq_aux (pfx : String) (files : List FileEnt) :
    ∀ st : List (String × FileEnt) × List (String × ModMeta),
    dkeys st.1 = dkeys st.2 →
    dkeys (files.foldl (scan_step pfx) st).1 = dkeys (files.foldl (scan_step pfx) st).2 := by
  induction files with
  | nil => intro st h; exact h
  | cons f fs ih =>
    intro st h
    simp only [List.foldl_cons]
    apply ih
    show dkeys (dset st.1 _ f) = dkeys (dset st.2 _ (read_meta f.read))
    rw [dkeys_dset, dkeys_dset, h]
    have hc : (dget st.1 (pfx ++ "/" ++ f.rel)).isSome =
        (dget st.2 (pfx ++ "/" ++ f.rel)).isSome := by
      have hiff : ((dget st.1 (pfx ++ "/" ++ f.rel)).isSome = true) ↔
          ((dget st.2 (pfx ++ "/" ++ f.rel)).isSome = true) := by
        rw [dmem_iff, dmem_iff, h]
      cases h1 : (dget st.1 (pfx ++ "/" ++ f.rel)).isSome <;>
        cases h2 : (dget st.2 (pfx ++ "/" ++ f.rel)).isSome <;> simp_all
    rw [hc]

theorem foldl_scan_keys (pfx : String) (files : List FileEnt) :
    ∀ st : List (String × FileEnt) × List (String × ModMeta),
    (∀ f ∈ files, (pfx ++ "/" ++ f.rel) ∉ dkeys st.1) →
    (files.map (fun f => pfx ++ "/" ++ f.rel)).Nodup →
    dkeys (files.foldl (scan_step pfx) st).1 =
      dkeys st.1 ++ files.map (fun f => pfx ++ "/" ++ f.rel) := by
  induction files with
  | nil => intro st _ _; simp
  | cons f fs ih =>
    intro st hfr hnd
    simp only [List.map_cons, List.nodup_cons] at hnd
    simp only [List.foldl_cons]
    have hnotm : ¬ ((dget st.1 (pfx ++ "/" ++ f.rel)).isSome = true) := by
      rw [dmem_iff]
      exact hfr f (List.mem_cons_self f fs)
    have hk1 : dkeys (scan_step pfx st f).1 = dkeys st.1 ++ [pfx ++ "/" ++ f.rel] := by
      show dkeys (dset st.1 _ f) = _
      rw [dkeys_dset, if_neg hnotm]
    rw [ih (scan_step pfx st f) ?fresh hnd.2, hk1]
    · simp
    case fresh =>
      intro g hg
      rw [hk1]
      simp only [List.mem_append, List.mem_singleton]
      push_neg
      constructor
      · exact hfr g (List.mem_cons_of_mem f hg)
      · intro he
        exact hnd.1 (he ▸ List.mem_map_of_mem (fun x => pfx ++ "/" ++ x.rel) hg)

/-! ### Key shape lemmas -/

theorem key_cross_ne (r1 r2 : String) :
    ("modules" ++ "/" ++ r1 : String) ≠ "examples" ++ "/" ++ r2 := by
  intro h
  have h1 := congrArg String.data h
  simp only [String.data_append] at h1
  simp [List.cons_append] at h1

theorem key_append_inj (pfx r1 r2 : String)
    (h : (pfx ++ "/" ++ r1 : String) = pfx ++ "/" ++ r2) : r1 = r2 := by
  have h1 := congrArg String.data h
  simp only [String.data_append, List.append_assoc] at h1
  apply String.ext
  exact List.append_cancel_left (List.append_cancel_left h1)

/-! ### `setOption` inversion and repeated sets -/

theorem setOption_ok_inv {inst : ModuleInstance} {k v : String} {i2 : ModuleInstance}
    (h : inst.setOption k v = .ok i2) :
    i2 = { inst with options := dset inst.options k v } := by
  unfold ModuleInstance.setOption at h
  cases ho : inst.module.OPTIONS? with
  | none => rw [ho] at h; simp at h
  | some schema =>
    rw [ho] at h
    split at h
    · simp at h
    · split at h
      · injection h with h2
        exact h2.symm
      · simp at h

theorem setOption_error_inv {inst : ModuleInstance} {schema : List (String × OptMeta)}
    {k v : String} {e : PyErr} (ho : inst.module.OPTIONS? = some schema)
    (h : inst.setOption k v = .error e) : (dget schema k).isSome = false := by
  unfold ModuleInstance.setOption at h
  rw [ho] at h
  split at h
  · next heq => exact absurd heq (by simp)
  · next schema2 heq =>
    injection heq with he2
    subst he2
    split at h
    · simp at h
    · next hc => simpa using hc

theorem applySets_fields (sets : List (String × String)) :
    ∀ inst : ModuleInstance,
    (applySets inst sets).module = inst.module ∧ (applySets inst sets).name = inst.name := by
  induction sets with
  | nil => intro inst; exact ⟨rfl, rfl⟩
  | cons s ss ih =>
    intro inst
    show (applySets _ ss).module = _ ∧ (applySets _ ss).name = _
    cases hso : inst.setOption s.1 s.2 with
    | ok i2 =>
      have h2 := setOption_ok_inv hso
      subst h2
      simpa [applySets, List.foldl_cons, hso] using ih { inst with options := dset inst.options s.1 s.2 }
    | error e =>
      simpa [applySets, List.foldl_cons, hso] using ih inst

theorem applySets_dget {schema : List (String × OptMeta)} :
    ∀ (sets : List (String × String)) (inst : ModuleInstance),
    inst.module.OPTIONS? = some schema → ∀ k : String, (dget schema k).isSome = true →
    dget (applySets inst sets).options k = resolveSets sets k (dget inst.options k) := by
  intro sets
  induction sets with
  | nil => intro inst _ k _; rfl
  | cons s ss ih =>
    intro inst ho k hk
    cases hso : inst.setOption s.1 s.2 with
    | ok i2 =>
      have h2 := setOption_ok_inv hso
      subst h2
      have step : applySets inst (s :: ss) =
          applySets { inst with options := dset inst.options s.1 s.2 } ss := by
        show applySets (match inst.setOption s.1 s.2 with
          | .ok i2 => i2
          | .error _ => inst) ss = _
        rw [hso]
      rw [step, ih { inst with options := dset inst.options s.1 s.2 } ho k hk]
      show resolveSets ss k (dget (dset inst.options s.1 s.2) k) =
        resolveSets ss k (if s.1 = k then some s.2 else dget inst.options k)
      congr 1
      by_cases hek : s.1 = k
      · subst hek
        rw [dget_dset_self, if_pos rfl]
      · rw [dget_dset_ne inst.options s.1 k s.2 (fun he => hek he.symm), if_neg hek]
    | error e =>
      have hk2 : s.1 ≠ k := by
        intro he
        have := setOption_error_inv ho hso
        rw [he] at this
        rw [this] at hk
        exact Bool.noConfusion hk
      have step : applySets inst (s :: ss) = applySets inst ss := by
        show applySets (match inst.setOption s.1 s.2 with
          | .ok i2 => i2
          | .error _ => inst) ss = _
        rw [hso]
      rw [step, ih inst ho k hk]
      show resolveSets ss k (dget inst.options k) =
        resolveSets ss k (if s.1 = k then some s.2 else dget inst.options k)
      rw [if_neg hk2]

theorem quote_not_ident {x : Char} (h : isQuote x = true) : pyIdentChar x = false := by
  simp only [isQuote, Bool.or_eq_true, beq_iff_eq] at h
  rcases h with h | h <;> subst h <;> decide

theorem nameMatchAt_sound : ∀ {l : List Char} {s : String} {r : List Char},
    nameMatchAt l = some (s, r) → ∃ nm, s = String.mk nm ∧ HeadMatch l nm r := by
  intro l s r h
  match l with
  | [] => simp [nameMatchAt] at h
  | c :: rest =>
    cases hq : isQuote c
    · simp [nameMatchAt, hq] at h
    · cases hdw : rest.dropWhile pyIdentChar with
      | nil => simp [nameMatchAt, hq, hdw] at h
      | cons q r3 =>
        cases hq2 : isQuote q
        · simp [nameMatchAt, hq, hdw, hq2] at h
        · cases htw : rest.takeWhile pyIdentChar with
          | nil => simp [nameMatchAt, hq, hdw, hq2, htw] at h
          | cons n0 ns =>
            cases hsw : r3.dropWhile pySpace with
            | nil => simp [nameMatchAt, hq, hdw, hq2, htw, hsw] at h
            | cons d r5 =>
              by_cases hd : d = ':'
              · subst hd
                simp [nameMatchAt, hq, hdw, hq2, htw, hsw] at h
                obtain ⟨hs, hr⟩ := h
                cases hr
                have hident : ∀ x ∈ (n0 :: ns), pyIdentChar x = true := by
                  intro x hx
                  exact List.mem_takeWhile_imp (htw ▸ hx)
                have hspace : ∀ x ∈ r3.takeWhile pySpace, pySpace x = true :=
                  fun x hx => List.mem_takeWhile_imp hx
                have hrest : rest = (n0 :: ns) ++ (q :: r3) := by
                  conv_lhs => rw [← List.takeWhile_append_dropWhile pyIdentChar rest]
                  rw [htw, hdw]
                refine ⟨n0 :: ns, hs.symm, c, q, r3.takeWhile pySpace, hq, hq2,
                  by simp, hident, hspace, ?_⟩
                rw [hrest]
                have hr3 : r3 = r3.takeWhile pySpace ++ (':' :: r) := by
                  conv_lhs => rw [← List.takeWhile_append_dropWhile pySpace r3]
                  rw [hsw]
                conv_lhs => rw [hr3]
              · simp [nameMatchAt, hq, hdw, hq2, htw, hsw, hd] at h

theorem nameMatchAt_complete {l : List Char} {nm r : List Char}
    (h : HeadMatch l nm r) : nameMatchAt l = some (String.mk nm, r) := by
  obtain ⟨q, q2, ws, hq, hq2, hne, hid, hws, hl⟩ := h
  subst hl
  cases nm with
  | nil => exact absurd rfl hne
  | cons n0 ns =>
    have hsplit1 := takeWhile_split pyIdentChar (n0 :: ns) q2 (ws ++ ':' :: r)
      hid (quote_not_ident hq2)
    have hsplit2 := takeWhile_split pySpace ws ':' r hws (by decide)
    have hA : List.dropWhile pyIdentChar (n0 :: (ns ++ q2 :: (ws ++ ':' :: r))) =
        q2 :: (ws ++ ':' :: r) := by simpa using hsplit1.2
    have hB : List.takeWhile pyIdentChar (n0 :: (ns ++ q2 :: (ws ++ ':' :: r))) =
        n0 :: ns := by simpa using hsplit1.1
    simp [nameMatchAt, hq, hA, hB, hq2, hsplit2.2]

theorem nameMatchAt_none_no_head {l : List Char} (h : nameMatchAt l = none) :
    ∀ nm r, ¬ HeadMatch l nm r := by
  intro nm r hm
  rw [nameMatchAt_complete hm] at h
  exact Option.noConfusion h

theorem findNames_scan : ∀ l : List Char, ScanNames l (findNames l) := by
  have main : ∀ n : Nat, ∀ l : List Char, l.length ≤ n → ScanNames l (findNames l) := by
    intro n
    induction n with
    | zero =>
      intro l hl
      have he : l = [] := List.eq_nil_of_length_eq_zero (Nat.le_zero.mp hl)
      subst he
      rw [findNames_nil]
      exact ScanNames.nil
    | succ m ih =>
      intro l hl
      cases hm : nameMatchAt l with
      | some pr =>
        obtain ⟨nm, r⟩ := pr
        obtain ⟨nmc, hs, hh⟩ := nameMatchAt_sound hm
        have hlt := nameMatchAt_length hm
        rw [findNames_eq_some hm, hs]
        exact ScanNames.found hh (ih r (by omega))
      | none =>
        cases l with
        | nil => rw [findNames_nil]; exact ScanNames.nil
        | cons c rest =>
          rw [findNames_eq_skip hm]
          have hl2 : rest.length ≤ m := by
            simp only [List.length_cons] at hl
            omega
          exact ScanNames.skip (nameMatchAt_none_no_head hm) (ih rest hl2)
  intro l
  exact main l.length l (Nat.le_refl _)

/-! ### Soundness of the OPTIONS-block search -/

theorem searchFrom_sound {α : Type} (f : List Char → Option α) :
    ∀ {l : List Char} {a : α}, searchFrom f l = some a →
    ∃ pre suf, l = pre ++ suf ∧ f suf = some a := by
  intro l
  induction l with
  | nil =>
    intro a h
    exact ⟨[], [], rfl, by simpa [searchFrom] using h⟩
  | cons c rest ih =>
    intro a h
    rw [searchFrom] at h
    cases hf : f (c :: rest) with
    | some b =>
      rw [hf] at h
      have hb : b = a := by simpa using h
      exact ⟨[], c :: rest, rfl, by rw [hf, hb]⟩
    | none =>
      rw [hf] at h
      obtain ⟨pre, suf, hp, hs⟩ := ih h
      exact ⟨c :: pre, suf, by rw [List.cons_append, ← hp], hs⟩

theorem matchOptionsAt_sound {l : List Char} {body : List Char}
    (h : matchOptionsAt l = some body) :
    ∃ ws1 ws2 post,
      (∀ c ∈ ws1, pySpace c = true) ∧ (∀ c ∈ ws2, pySpace c = true) ∧
      (∀ c ∈ body, c ≠ rbrace) ∧
      l = "OPTIONS".data ++ (ws1 ++ '=' :: (ws2 ++ lbrace :: (body ++ rbrace :: post))) := by
  by_cases h7 : l.take 7 = "OPTIONS".data
  · cases hdw : (l.drop 7).dropWhile pySpace with
    | nil => simp [matchOptionsAt, h7, hdw] at h
    | cons e r2 =>
      by_cases he : e = '='
      · subst he
        cases hdw2 : r2.dropWhile pySpace with
        | nil => simp [matchOptionsAt, h7, hdw, hdw2] at h
        | cons b r4 =>
          by_cases hb : b = lbrace
          · subst hb
            cases hdw3 : r4.dropWhile notRBrace with
            | nil => simp [matchOptionsAt, h7, hdw, hdw2, hdw3] at h
            | cons z post =>
              simp [matchOptionsAt, h7, hdw, hdw2, hdw3] at h
              have hz : z = rbrace := by
                have hzf := dropWhile_head_false notRBrace hdw3
                simpa [notRBrace] using hzf
              refine ⟨(l.drop 7).takeWhile pySpace, r2.takeWhile pySpace, post,
                fun c hc => List.mem_takeWhile_imp hc,
                fun c hc => List.mem_takeWhile_imp hc, ?_, ?_⟩
              · intro c hc
                rw [← h] at hc
                have := List.mem_takeWhile_imp hc
                simpa [notRBrace] using this
              · have e4 : r4 = body ++ (rbrace :: post) := by
                  conv_lhs => rw [← List.takeWhile_append_dropWhile notRBrace r4]
                  rw [hdw3, hz, h]
                have e2 : r2 = r2.takeWhile pySpace ++ (lbrace :: r4) := by
                  conv_lhs => rw [← List.takeWhile_append_dropWhile pySpace r2]
                  rw [hdw2]
                have e7 : l.drop 7 = (l.drop 7).takeWhile pySpace ++ ('=' :: r2) := by
                  conv_lhs => rw [← List.takeWhile_append_dropWhile pySpace (l.drop 7)]
                  rw [hdw]
                calc l = l.take 7 ++ l.drop 7 := (List.take_append_drop 7 l).symm
                  _ = "OPTIONS".data ++ ((l.drop 7).takeWhile pySpace ++ ('=' :: r2)) := by
                      rw [h7]
                      conv_lhs => rw [e7]
                  _ = _ := by
                      conv_lhs => rw [e2]
                      conv_lhs => rw [e4]
          · simp [matchOptionsAt, h7, hdw, hdw2, hb] at h
      · simp [matchOptionsAt, h7, hdw, he] at h
  · simp [matchOptionsAt, h7] at h

/-- Metadata extraction only depends on the first 120 lines. -/
theorem read_meta_take (lines lines2 : List String)
    (h : lines2.take METADATA_READ_LINES = lines.take METADATA_READ_LINES) :
    read_meta (.ok lines2) = read_meta (.ok lines) := by
  simp [read_meta, h]

theorem dget_mem {α : Type} : ∀ (d : List (String × α)) (k : String) (x : α),
    dget d k = some x → (k, x) ∈ d := by
  intro d
  induction d with
  | nil => intro k x h; simp [dget] at h
  | cons p rest ih =>
    intro k x h
    obtain ⟨k0, v0⟩ := p
    by_cases h0 : k0 = k
    · subst h0
      simp [dget] at h
      rw [← h]
      exact List.mem_cons_self _ _
    · simp [dget, h0] at h
      exact List.mem_cons_of_mem _ (ih k x h)

theorem dget_isSome_of_mem {α : Type} : ∀ (d : List (String × α)) (p : String × α),
    p ∈ d → (dget d p.1).isSome = true := by
  intro d
  induction d with
  | nil => intro p hp; cases hp
  | cons q rest ih =>
    intro p hp
    obtain ⟨k0, v0⟩ := q
    by_cases h0 : k0 = p.1
    · simp [dget, h0]
    · rcases List.mem_cons.mp hp with he | hm
      · subst he
        simp at h0
      · simp only [dget, if_neg h0]
        exact ih p hm

/-! ### The claims -/

/-- C3 counterexample: a file whose read fails is not skipped by the scan,
as the claim asserts; its key is entered into both the location map and the
metadata map (with empty metadata). -/
theorem C3_counterexample :
    fileBadRead.read = .error () ∧
    dget (scan_modules [fileBadRead] []).1 ("modules/bad.py") = some fileBadRead ∧
    dget (scan_modules [fileBadRead] []).2 ("modules/bad.py") =
      some { description := "", options := [] } :=
  ⟨rfl, rfl, rfl⟩

/-- C3 (amended): when reading a discovered file of either root fails, the
scan still registers that file in both maps — the location map keeps the
file, the metadata map gets the empty record — and every file of both roots
is scanned and registered in both maps as well (no abort). -/
theorem C3_unreadable_still_registered (fsm fse : List FileEnt) (f : FileEnt)
    (hrd : f.read = .error ())
    (hnd1 : (fsm.map FileEnt.rel).Nodup) (hnd2 : (fse.map FileEnt.rel).Nodup) :
    (f ∈ fsm →
      dget (scan_modules fsm fse).1 ("modules" ++ "/" ++ f.rel) = some f ∧
      dget (scan_modules fsm fse).2 ("modules" ++ "/" ++ f.rel) =
        some { description := "", options := [] }) ∧
    (f ∈ fse →
      dget (scan_modules fsm fse).1 ("examples" ++ "/" ++ f.rel) = some f ∧
      dget (scan_modules fsm fse).2 ("examples" ++ "/" ++ f.rel) =
        some { description := "", options := [] }) ∧
    (∀ g ∈ fsm, ("modules" ++ "/" ++ g.rel) ∈ dkeys (scan_modules fsm fse).1 ∧
      ("modules" ++ "/" ++ g.rel) ∈ dkeys (scan_modules fsm fse).2) ∧
    (∀ g ∈ fse, ("examples" ++ "/" ++ g.rel) ∈ dkeys (scan_modules fsm fse).1 ∧
      ("examples" ++ "/" ++ g.rel) ∈ dkeys (scan_modules fsm fse).2) := by
  have hndm : (fsm.map (fun g => "modules" ++ "/" ++ g.rel)).Nodup := by
    have hcomp : (fun g : FileEnt => "modules" ++ "/" ++ g.rel) =
        (fun r : String => "modules" ++ "/" ++ r) ∘ FileEnt.rel := rfl
    rw [hcomp, ← List.map_map]
    exact List.Nodup.map (fun a b hab => key_append_inj "modules" a b hab) hnd1
  have hnde : (fse.map (fun g => "examples" ++ "/" ++ g.rel)).Nodup := by
    have hcomp : (fun g : FileEnt => "examples" ++ "/" ++ g.rel) =
        (fun r : String => "examples" ++ "/" ++ r) ∘ FileEnt.rel := rfl
    rw [hcomp, ← List.map_map]
    exact List.Nodup.map (fun a b hab => key_append_inj "examples" a b hab) hnd2
  have hpass : ∀ g : FileEnt, g ∈ fsm →
      dget (scan_modules fsm fse).1 ("modules" ++ "/" ++ g.rel) = some g ∧
      dget (scan_modules fsm fse).2 ("modules" ++ "/" ++ g.rel) =
        some (read_meta g.read) := by
    intro g hg
    have hM := foldl_scan_mem "modules" fsm ([], []) g hndm hg
    have hfresh : ("modules" ++ "/" ++ g.rel) ∉
        fse.map (fun x => "examples" ++ "/" ++ x.rel) := by
      intro hmem
      rw [List.mem_map] at hmem
      obtain ⟨x, _, he⟩ := hmem
      exact key_cross_ne g.rel x.rel he.symm
    obtain ⟨ha, hb⟩ :=
      foldl_scan_fresh "examples" fse (fsm.foldl (scan_step "modules") ([], [])) _ hfresh
    exact ⟨by rw [show (scan_modules fsm fse) =
        fse.foldl (scan_step "examples") (fsm.foldl (scan_step "modules") ([], []))
        from rfl, ha, hM.1],
      by rw [show (scan_modules fsm fse) =
        fse.foldl (scan_step "examples") (fsm.foldl (scan_step "modules") ([], []))
        from rfl, hb, hM.2]⟩
  have hpassE : ∀ g : FileEnt, g ∈ fse →
      dget (scan_modules fsm fse).1 ("examples" ++ "/" ++ g.rel) = some g ∧
      dget (scan_modules fsm fse).2 ("examples" ++ "/" ++ g.rel) =
        some (read_meta g.read) :=
    fun g hg =>
      foldl_scan_mem "examples" fse (fsm.foldl (scan_step "modules") ([], [])) g hnde hg
  refine ⟨?_, ?_, ?_, ?_⟩
  · intro hf
    refine ⟨(hpass f hf).1, ?_⟩
    rw [(hpass f hf).2, hrd]
    rfl
  · intro hf
    refine ⟨(hpassE f hf).1, ?_⟩
    rw [(hpassE f hf).2, hrd]
    rfl
  · intro g hg
    constructor
    · rw [← dmem_iff, (hpass g hg).1]
      rfl
    · rw [← dmem_iff, (hpass g hg).2]
      rfl
  · intro g hg
    constructor
    · rw [← dmem_iff, (hpassE g hg).1]
      rfl
    · rw [← dmem_iff, (hpassE g hg).2]
      rfl

/-- C3 witness: the same unreadable file discovered under both roots gets
registered in both maps, under both namespaces, with empty metadata. -/
theorem C3_witness :
    (dget (scan_modules [fileBadRead] [fileBadRead]).1
        ("modules" ++ "/" ++ fileBadRead.rel) = some fileBadRead ∧
      dget (scan_modules [fileBadRead] [fileBadRead]).2
        ("modules" ++ "/" ++ fileBadRead.rel) =
        some { description := "", options := [] }) ∧
    (dget (scan_modules [fileBadRead] [fileBadRead]).1
        ("examples" ++ "/" ++ fileBadRead.rel) = some fileBadRead ∧
      dget (scan_modules [fileBadRead] [fileBadRead]).2
        ("examples" ++ "/" ++ fileBadRead.rel) =
        some { description := "", options := [] }) :=
  ⟨(C3_unreadable_still_registered [fileBadRead] [fileBadRead] fileBadRead rfl
      (by decide) (by decide)).1 (List.mem_cons_self _ _),
   (C3_unreadable_still_registered [fileBadRead] [fileBadRead] fileBadRead rfl
      (by decide) (by decide)).2.1 (List.mem_cons_self _ _)⟩

/-- C4: after a scan the location map and the metadata map carry exactly the
same key list, and with distinct relative paths inside each root the key
list has no duplicates: two distinct discovered files never share a key. -/
theorem C4_scan_key_invariants (fsm fse : List FileEnt)
    (hnd1 : (fsm.map FileEnt.rel).Nodup) (hnd2 : (fse.map FileEnt.rel).Nodup) :
    dkeys (scan_modules fsm fse).1 = dkeys (scan_modules fsm fse).2 ∧
    (dkeys (scan_modules fsm fse).1).Nodup := by
  have hndm : (fsm.map (fun g => "modules" ++ "/" ++ g.rel)).Nodup := by
    have hcomp : (fun g : FileEnt => "modules" ++ "/" ++ g.rel) =
        (fun r : String => "modules" ++ "/" ++ r) ∘ FileEnt.rel := rfl
    rw [hcomp, ← List.map_map]
    exact List.Nodup.map (fun a b hab => key_append_inj "modules" a b hab) hnd1
  have hnde : (fse.map (fun g => "examples" ++ "/" ++ g.rel)).Nodup := by
    have hcomp : (fun g : FileEnt => "examples" ++ "/" ++ g.rel) =
        (fun r : String => "examples" ++ "/" ++ r) ∘ FileEnt.rel := rfl
    rw [hcomp, ← List.map_map]
    exact List.Nodup.map (fun a b hab => key_append_inj "examples" a b hab) hnd2
  constructor
  · exact scan_keys_eq_aux "examples" fse _
      (scan_keys_eq_aux "modules" fsm ([], []) rfl)
  · have hm1 := foldl_scan_keys "modules" fsm ([], [])
      (by intro g _ hmem; simp [dkeys] at hmem) hndm
    have hfresh2 : ∀ g ∈ fse, ("examples" ++ "/" ++ g.rel) ∉
        dkeys (fsm.foldl (scan_step "modules") ([], [])).1 := by
      intro g _ hmem
      rw [hm1] at hmem
      simp only [dkeys, List.map_nil, List.nil_append, List.mem_map] at hmem
      obtain ⟨x, _, he⟩ := hmem
      exact key_cross_ne x.rel g.rel he
    have hm2 := foldl_scan_keys "examples" fse
      (fsm.foldl (scan_step "modules") ([], [])) hfresh2 hnde
    rw [show (scan_modules fsm fse) =
      fse.foldl (scan_step "examples") (fsm.foldl (scan_step "modules") ([], []))
      from rfl, hm2, hm1]
    simp only [dkeys, List.map_nil, List.nil_append]
    refine List.Nodup.append hndm hnde ?_
    intro x hx1 hx2
    rw [List.mem_map] at hx1 hx2
    obtain ⟨f1, _, he1⟩ := hx1
    obtain ⟨f2, _, he2⟩ := hx2
    exact key_cross_ne f1.rel f2.rel (he1.trans he2.symm)

/-- C4 witness on a concrete two-root filesystem. -/
theorem C4_witness :
    dkeys (scan_modules [fileEcho, fileNoDef] [filePlain]).1 =
      dkeys (scan_modules [fileEcho, fileNoDef] [filePlain]).2 ∧
    (dkeys (scan_modules [fileEcho, fileNoDef] [filePlain]).1).Nodup :=
  C4_scan_key_invariants [fileEcho, fileNoDef] [filePlain] (by decide) (by decide)

/-- C5: `set_option` on a name outside the declared schema raises the
unknown-option KeyError, and at the command boundary `cmd_set` leaves the
whole framework (hence the option store) unchanged; on a declared name it
stores the string value, overwriting any prior binding for that name and
touching no other binding. -/
theorem C5_setOption_spec (inst : ModuleInstance) (schema : List (String × OptMeta))
    (name value : String) (h : inst.module.OPTIONS? = some schema) :
    (dget schema name = none →
      inst.setOption name value = .error (.keyError ("Unknown option " ++ name)) ∧
      ∀ fw : LazyFramework, fw.loaded_module = some inst →
        ∀ v vs, (fw.cmd_set (name :: v :: vs)).1 = fw) ∧
    (∀ m : OptMeta, dget schema name = some m →
      inst.setOption name value =
        .ok { inst with options := dset inst.options name value } ∧
      dget (dset inst.options name value) name = some value ∧
      ∀ k, k ≠ name → dget (dset inst.options name value) k = dget inst.options k) := by
  constructor
  · intro hn
    constructor
    · unfold ModuleInstance.setOption
      rw [h]
      simp [hn]
    · intro fw hfw v vs
      have herr2 : inst.setOption name (String.intercalate " " (v :: vs)) =
          .error (.keyError ("Unknown option " ++ name)) := by
        unfold ModuleInstance.setOption
        rw [h]
        simp [hn]
      unfold LazyFramework.cmd_set
      rw [hfw]
      simp [herr2]
  · intro m hm
    refine ⟨?_, dget_dset_self inst.options name value,
      fun k hk => dget_dset_ne inst.options name k value hk⟩
    unfold ModuleInstance.setOption
    rw [h]
    simp [hm]

/-- C5 witness on a live echo instance. -/
theorem C5_witness :
    instEcho.setOption "RHOST" "10.0.0.1" =
      .error (.keyError ("Unknown option " ++ "RHOST")) ∧
    instEcho.setOption "MSG" "hi" =
      .ok { instEcho with options := dset instEcho.options "MSG" "hi" } ∧
    dget (dset instEcho.options "MSG" "hi") "MSG" = some "hi" := by
  have h1 := C5_setOption_spec instEcho echoSchema "RHOST" "10.0.0.1" rfl
  have h2 := C5_setOption_spec instEcho echoSchema "MSG" "hi" rfl
  refine ⟨(h1.1 (by decide)).1, ?_, ?_⟩
  · exact (h2.2 { required := true, default := some "", description := "Message to echo" }
      (by decide)).1
  · exact (h2.2 { required := true, default := some "", description := "Message to echo" }
      (by decide)).2.1

/-- C7: when the resolved key is absent from the registry, or the file's
execution fails, or the produced module lacks an OPTIONS attribute, cmd_use
reports a single load-error line and returns the framework unchanged — the
prior session, with its overrides, survives. -/
theorem C7_failed_use_preserves_state (fw : LazyFramework) (a : String) (rest : List String) :
    (dget fw.modules (resolveKey fw a) = none →
      (fw.cmd_use (a :: rest)).1 = fw ∧
      (fw.cmd_use (a :: rest)).2 =
        ["Load error: " ++ errText (.keyError (resolveKey fw a))]) ∧
    (∀ e, import_module fw (resolveKey fw a) = .error e →
      (fw.cmd_use (a :: rest)).1 = fw ∧
      (fw.cmd_use (a :: rest)).2 = ["Load error: " ++ errText e]) ∧
    (∀ mod, import_module fw (resolveKey fw a) = .ok mod → mod.OPTIONS? = none →
      (fw.cmd_use (a :: rest)).1 = fw ∧
      (fw.cmd_use (a :: rest)).2 =
        ["Load error: " ++ errText (.attributeError "OPTIONS")]) := by
  refine ⟨?_, ?_, ?_⟩
  · intro hn
    have he : import_module fw (resolveKey fw a) = .error (.keyError (resolveKey fw a)) := by
      unfold import_module
      rw [hn]
    constructor
    · unfold LazyFramework.cmd_use
      simp [he]
    · unfold LazyFramework.cmd_use
      simp [he]
  · intro e he
    constructor
    · unfold LazyFramework.cmd_use
      simp [he]
    · unfold LazyFramework.cmd_use
      simp [he]
  · intro mod hm ho
    constructor
    · unfold LazyFramework.cmd_use
      simp [hm, ho]
    · unfold LazyFramework.cmd_use
      simp [hm, ho]

/-- C7 witness: with the echo session loaded, `use` of an unknown key leaves
the loaded framework intact. -/
theorem C7_witness :
    (fwEchoLoaded.cmd_use ["modules/ghost.py"]).1 = fwEchoLoaded ∧
    (fwEchoLoaded.cmd_use ["modules/ghost.py"]).2 =
      ["Load error: " ++ errText (.keyError (resolveKey fwEchoLoaded "modules/ghost.py"))] :=
  (C7_failed_use_preserves_state fwEchoLoaded "modules/ghost.py" []).1 rfl

/-- C10: right after a successful `use`, the instance's option store is the
eagerly materialised default map: every schema option declaring a default is
bound to that default, and options declaring no default have no binding. -/
theorem C10_defaults_eager (fw : LazyFramework) (a : String) (rest : List String)
    (mod : PyModule) (schema : List (String × OptMeta))
    (h1 : import_module fw (resolveKey fw a) = .ok mod)
    (h2 : mod.OPTIONS? = some schema)
    (h3 : (schema.map Prod.fst).Nodup) :
    ∃ inst, (fw.cmd_use (a :: rest)).1.loaded_module = some inst ∧
      inst.options = mkDefaults schema ∧
      (∀ p ∈ schema, ∀ d, p.2.default = some d → dget inst.options p.1 = some d) ∧
      (∀ p ∈ schema, p.2.default = none → dget inst.options p.1 = none) := by
  refine ⟨{ name := resolveKey fw a, module := mod, options := mkDefaults schema },
    ?_, rfl, ?_, ?_⟩
  · unfold LazyFramework.cmd_use
    simp [h1, h2]
  · intro p hp d hd
    show dget (mkDefaults schema) p.1 = some d
    rw [mkDefaults_dget schema h3 p hp, hd]
  · intro p hp hd
    show dget (mkDefaults schema) p.1 = none
    rw [mkDefaults_dget schema h3 p hp, hd]

/-- C10 witness: the mixed module materialises the defaulted option and
leaves the default-free one unbound. -/
theorem C10_witness :
    ∃ inst, (fwMixed.cmd_use ["modules/mixed.py"]).1.loaded_module = some inst ∧
      inst.options = mkDefaults mixedSchema ∧
      (∀ p ∈ mixedSchema, ∀ d, p.2.default = some d → dget inst.options p.1 = some d) ∧
      (∀ p ∈ mixedSchema, p.2.default = none → dget inst.options p.1 = none) :=
  C10_defaults_eager fwMixed "modules/mixed.py" [] modMixed mixedSchema rfl rfl (by decide)

/-- C1 counterexample: after loading a module whose only declared option has
no default, the store handed to the module's run entry point contains no
binding for that declared option, although the claim requires one. -/
theorem C1_counterexample :
    ∃ inst, (fwNoDef.cmd_use ["modules/nodef.py"]).1.loaded_module = some inst ∧
      inst.module.OPTIONS? = some noDefSchema ∧
      dget inst.options "A" = none ∧
      ∀ s, inst.run s = inst.module.run s inst.options := by
  refine ⟨{ name := "modules/nodef.py", module := modNoDef
            options := mkDefaults noDefSchema }, ?_, rfl, rfl, fun s => rfl⟩
  rfl

/-- C1 (amended): `run` hands the module the session context together with
the session's raw option store; after a successful `use` followed by any
sequence of `set` operations, that store binds each declared option to its
last accepted override when one exists, else to its declared default when
one exists, and binds it to nothing otherwise. -/
theorem C1_run_amended (fw : LazyFramework) (a : String) (rest : List String)
    (mod : PyModule) (schema : List (String × OptMeta))
    (h1 : import_module fw (resolveKey fw a) = .ok mod)
    (h2 : mod.OPTIONS? = some schema)
    (h3 : (schema.map Prod.fst).Nodup) :
    ∃ inst, (fw.cmd_use (a :: rest)).1.loaded_module = some inst ∧
      (∀ sets sess, (applySets inst sets).run sess =
        mod.run sess (applySets inst sets).options) ∧
      (∀ sets, ∀ p ∈ schema,
        dget (applySets inst sets).options p.1 = resolveSets sets p.1 p.2.default) := by
  refine ⟨{ name := resolveKey fw a, module := mod, options := mkDefaults schema },
    ?_, ?_, ?_⟩
  · unfold LazyFramework.cmd_use
    simp [h1, h2]
  · intro sets sess
    unfold ModuleInstance.run
    rw [(applySets_fields sets _).1]
  · intro sets p hp
    rw [applySets_dget sets _ h2 p.1 (dget_isSome_of_mem schema p hp)]
    congr 1
    show dget (mkDefaults schema) p.1 = p.2.default
    exact mkDefaults_dget schema h3 p hp

/-- C1 witness at the mixed module. -/
theorem C1_witness :
    ∃ inst, (fwMixed.cmd_use ["modules/mixed.py"]).1.loaded_module = some inst ∧
      (∀ sets sess, (applySets inst sets).run sess =
        modMixed.run sess (applySets inst sets).options) ∧
      (∀ sets, ∀ p ∈ mixedSchema,
        dget (applySets inst sets).options p.1 = resolveSets sets p.1 p.2.default) :=
  C1_run_amended fwMixed "modules/mixed.py" [] modMixed mixedSchema rfl rfl (by decide)

/-- C2 counterexample: a file with no OPTIONS declaration and no description
field does yield empty metadata, but — contrary to the claim — it cannot be
loaded: `use` reports a load error and no session is created. -/
theorem C2_counterexample :
    read_meta filePlain.read = { description := "", options := [] } ∧
    fwPlain.loaded_module = none ∧
    (fwPlain.cmd_use ["modules/plain.py"]).1.loaded_module = none ∧
    (fwPlain.cmd_use ["modules/plain.py"]).2 =
      ["Load error: " ++ errText (.attributeError "OPTIONS")] :=
  ⟨by decide, rfl, rfl, rfl⟩

/-- C2 (amended): a module file whose first 120 lines match neither pattern
yields empty metadata; it is still registered and addressable, but `use`
fails with a load error because the executed module exposes no OPTIONS
attribute, leaving the framework (and any prior session) unchanged, so
`setOption` and `run` are never reached for it. -/
theorem C2_no_options_spec (fw : LazyFramework) (a : String) (rest : List String)
    (f : FileEnt) (mod : PyModule) (lines : List String)
    (hk : dget fw.modules (resolveKey fw a) = some f)
    (hx : f.exec = .ok mod) (ho : mod.OPTIONS? = none)
    (hr : f.read = .ok lines)
    (hdn : descSearch ((String.join (lines.take METADATA_READ_LINES)).data) = none)
    (hbn : optionsSearch ((String.join (lines.take METADATA_READ_LINES)).data) = none) :
    read_meta f.read = { description := "", options := [] } ∧
    (fw.cmd_use (a :: rest)).1 = fw ∧
    (fw.cmd_use (a :: rest)).2 = ["Load error: " ++ errText (.attributeError "OPTIONS")] := by
  have him : import_module fw (resolveKey fw a) = .ok mod := by
    unfold import_module
    rw [hk]
    show (match f.exec with
      | .error _ => Except.error PyErr.execError
      | .ok m => Except.ok m) = Except.ok mod
    rw [hx]
  refine ⟨?_, ?_, ?_⟩
  · rw [hr]
    simp only [read_meta]
    rw [hdn, hbn]
    rfl
  · unfold LazyFramework.cmd_use
    simp [him, ho]
  · unfold LazyFramework.cmd_use
    simp [him, ho]

/-- C2 witness at the plain file. -/
theorem C2_witness :
    read_meta filePlain.read = { description := "", options := [] } ∧
    (fwPlain.cmd_use ["modules/plain.py"]).1 = fwPlain ∧
    (fwPlain.cmd_use ["modules/plain.py"]).2 =
      ["Load error: " ++ errText (.attributeError "OPTIONS")] :=
  C2_no_options_spec fwPlain "modules/plain.py" [] filePlain modPlain ["x = 1\n"]
    rfl rfl rfl rfl (by decide) (by decide)

/-- C6: `get_options` lists exactly the schema's options, in declaration
order, each valued by the stored override when present and by the schema
default otherwise; after a successful `use`, an option with no override
reports exactly its default, and after `set_option name v` the view reports
`v` at `name` and the defaults everywhere else. -/
theorem C6_getOptions_spec (key : String) (mod : PyModule)
    (schema : List (String × OptMeta)) (name v : String)
    (h1 : mod.OPTIONS? = some schema) (h2 : (schema.map Prod.fst).Nodup) :
    (∀ opts, ModuleInstance.getOptions { name := key, module := mod, options := opts } =
        .ok (schema.map (optView opts)) ∧
      (schema.map (optView opts)).map Prod.fst = schema.map Prod.fst) ∧
    (∀ p ∈ schema, optView (mkDefaults schema) p =
      (p.1, { value := p.2.default, required := p.2.required, default := p.2.default,
              description := p.2.description })) ∧
    (∀ m : OptMeta, dget schema name = some m →
      ModuleInstance.setOption { name := key, module := mod, options := mkDefaults schema }
          name v =
        .ok { name := key, module := mod, options := dset (mkDefaults schema) name v } ∧
      optView (dset (mkDefaults schema) name v) (name, m) =
        (name, { value := some v, required := m.required, default := m.default,
                 description := m.description }) ∧
      (name, m) ∈ schema ∧
      (∀ p ∈ schema, p.1 ≠ name →
        optView (dset (mkDefaults schema) name v) p =
          (p.1, { value := p.2.default, required := p.2.required, default := p.2.default,
                  description := p.2.description }))) := by
  refine ⟨?_, ?_, ?_⟩
  · intro opts
    constructor
    · simp only [ModuleInstance.getOptions, h1]
      rfl
    · rw [List.map_map]
      rfl
  · intro p hp
    cases hd : p.2.default with
    | some d => simp [optView, mkDefaults_dget schema h2 p hp, hd, Option.orElse]
    | none => simp [optView, mkDefaults_dget schema h2 p hp, hd, Option.orElse]
  · intro m hm
    refine ⟨?_, ?_, dget_mem schema name m hm, ?_⟩
    · unfold ModuleInstance.setOption
      simp [h1, hm]
    · simp [optView, dget_dset_self, Option.orElse]
    · intro p hp hne
      have hv : dget (dset (mkDefaults schema) name v) p.1 = p.2.default := by
        rw [dget_dset_ne (mkDefaults schema) name p.1 v hne]
        exact mkDefaults_dget schema h2 p hp
      cases hd : p.2.default with
      | some d => simp [optView, hv, hd, Option.orElse]
      | none => simp [optView, hv, hd, Option.orElse]

/-- C6 witness at the echo module. -/
theorem C6_witness :
    ModuleInstance.getOptions { name := "modules/aux/echo.py", module := modEcho
                                options := mkDefaults echoSchema } =
      .ok (echoSchema.map (optView (mkDefaults echoSchema))) ∧
    optView (mkDefaults echoSchema)
        ("MSG", { required := true, default := some "", description := "Message to echo" }) =
      ("MSG", { value := some "", required := true, default := some "",
                description := "Message to echo" }) ∧
    optView (dset (mkDefaults echoSchema) "MSG" "hi")
        ("MSG", { required := true, default := some "", description := "Message to echo" }) =
      ("MSG", { value := some "hi", required := true, default := some "",
                description := "Message to echo" }) := by
  have h := C6_getOptions_spec "modules/aux/echo.py" modEcho echoSchema "MSG" "hi"
    rfl (by decide)
  refine ⟨(h.1 (mkDefaults echoSchema)).1, ?_, ?_⟩
  · exact h.2.1 ("MSG",
      { required := true, default := some "", description := "Message to echo" }) (by decide)
  · exact (h.2.2 { required := true, default := some "", description := "Message to echo" }
      (by decide)).2.1

/-- C8: search returns exactly the key/description pairs whose lowered key
or lowered description contains the lowered keyword as a substring; the
empty keyword returns every entry, and searching a registered key always
returns that key. -/
theorem C8_search_spec (metadata : List (String × ModMeta)) (keyword : String) :
    (∀ k d, (k, d) ∈ search_modules metadata keyword ↔
      ∃ m : ModMeta, (k, m) ∈ metadata ∧ d = m.description ∧
        ((∃ pre post, (strToLower k).data = pre ++ ((strToLower keyword).data ++ post)) ∨
         (∃ pre post, (strToLower m.description).data =
            pre ++ ((strToLower keyword).data ++ post)))) ∧
    search_modules metadata "" = metadata.map (fun p => (p.1, p.2.description)) ∧
    (∀ k m, (k, m) ∈ metadata → (k, m.description) ∈ search_modules metadata k) := by
  refine ⟨?_, ?_, ?_⟩
  · intro k d
    constructor
    · intro hx
      simp only [search_modules, List.mem_map, List.mem_filter] at hx
      obtain ⟨p, ⟨hpmem, hq⟩, hfp⟩ := hx
      simp only [Prod.mk.injEq] at hfp
      obtain ⟨hk, hd⟩ := hfp
      refine ⟨p.2, ?_, hd.symm, ?_⟩
      · rw [← hk]
        exact hpmem
      · rw [Bool.or_eq_true] at hq
        rcases hq with hq | hq
        · refine Or.inl ?_
          obtain ⟨pre, post, hpp⟩ := (hasSub_iff _ _).mp hq
          exact ⟨pre, post, by rw [← hk]; exact hpp⟩
        · refine Or.inr ?_
          obtain ⟨pre, post, hpp⟩ := (hasSub_iff _ _).mp hq
          exact ⟨pre, post, hpp⟩
    · rintro ⟨m, hm, hd, hc⟩
      subst hd
      simp only [search_modules, List.mem_map]
      refine ⟨(k, m), ?_, rfl⟩
      rw [List.mem_filter]
      refine ⟨hm, ?_⟩
      rw [Bool.or_eq_true]
      rcases hc with ⟨pre, post, hpp⟩ | ⟨pre, post, hpp⟩
      · exact Or.inl ((hasSub_iff _ _).mpr ⟨pre, post, hpp⟩)
      · exact Or.inr ((hasSub_iff _ _).mpr ⟨pre, post, hpp⟩)
  · have h0 : (strToLower "").data = [] := by decide
    have hf : metadata.filter (fun p =>
        hasSub (strToLower "").data (strToLower p.1).data ||
          hasSub (strToLower "").data (strToLower p.2.description).data) = metadata := by
      rw [List.filter_eq_self]
      intro p _
      rw [Bool.or_eq_true]
      refine Or.inl ?_
      rw [h0]
      exact hasSub_nil _
    simp only [search_modules]
    rw [hf]
  · intro k m hm
    simp only [search_modules, List.mem_map]
    refine ⟨(k, m), ?_, rfl⟩
    rw [List.mem_filter]
    refine ⟨hm, ?_⟩
    rw [Bool.or_eq_true]
    exact Or.inl (hasSub_self _)

/-- C8 witness on a concrete registry: searching a full key finds it. -/
theorem C8_witness :
    ("modules/aux/echo.py", "Echo string back") ∈
      search_modules mdEcho "modules/aux/echo.py" :=
  (C8_search_spec mdEcho "modules/aux/echo.py").2.2 "modules/aux/echo.py"
    { description := "Echo string back", options := ["MSG"] } (by decide)

/-- C9 counterexample: with whitespace between the closing quote and the
colon the code still extracts the name (the regex allows `\s*`), while the
claim's strict "immediately followed by a colon" reading extracts nothing. -/
theorem C9_counterexample :
    (read_meta (.ok c9lines)).options = ["A"] ∧
    optionsSearch ((String.join (c9lines.take METADATA_READ_LINES)).data) =
      some ("\"A\" : 1".data) ∧
    specNamesStrict ("\"A\" : 1".data) = [] :=
  ⟨by decide, by decide, by decide⟩

/-- C9 (amended): when the first 120 lines contain an OPTIONS declaration,
extraction returns exactly the findall scan over the single-level brace
body — each quoted identifier followed by optional whitespace and a colon,
in order, without overlap — the captured body is the run between the brace
after `OPTIONS =` and the first closing brace, and the result depends only
on those 120 lines. -/
theorem C9_extraction_spec (lines : List String) (body : List Char)
    (h : optionsSearch ((String.join (lines.take METADATA_READ_LINES)).data) = some body) :
    (read_meta (.ok lines)).options = findNames body ∧
    ScanNames body (findNames body) ∧
    (∀ c ∈ body, c ≠ rbrace) ∧
    (∃ pre ws1 ws2 post,
      (String.join (lines.take METADATA_READ_LINES)).data =
        pre ++ ("OPTIONS".data ++ (ws1 ++ '=' :: (ws2 ++ lbrace :: (body ++ rbrace :: post)))) ∧
      (∀ c ∈ ws1, pySpace c = true) ∧ (∀ c ∈ ws2, pySpace c = true)) ∧
    (∀ lines2, lines2.take METADATA_READ_LINES = lines.take METADATA_READ_LINES →
      read_meta (.ok lines2) = read_meta (.ok lines)) := by
  obtain ⟨pre, suf, hps, hm⟩ := searchFrom_sound matchOptionsAt h
  obtain ⟨ws1, ws2, post, hw1, hw2, hbmem, hsuf⟩ := matchOptionsAt_sound hm
  refine ⟨by simp only [read_meta]; rw [h], findNames_scan body, hbmem,
    ⟨pre, ws1, ws2, post, ?_, hw1, hw2⟩,
    fun l2 hl2 => read_meta_take lines l2 hl2⟩
  rw [hps, hsuf]

/-- C9 witness at the concrete OPTIONS file. -/
theorem C9_witness :
    (read_meta (.ok c9lines)).options = findNames ("\"A\" : 1".data) ∧
    ScanNames ("\"A\" : 1".data) (findNames ("\"A\" : 1".data)) :=
  ⟨(C9_extraction_spec c9lines ("\"A\" : 1".data) (by decide)).1,
   (C9_extraction_spec c9lines ("\"A\" : 1".data) (by decide)).2.1⟩

end LZF

